import Mathlib

/-!
# Verification of the blitz-quote-engine2 rating-region / temporal rate cache core

Shallow embedding, in Lean 4, of the parts of the `blitz-quote-engine2`
repository that the specification's claims are about:

* the temporal rate cache lookup (`src/app/models.py`
  `DuckDBRateStore.get_most_recent_effective_date_query`, and
  `src/spot_check.py` `RateSpotChecker._get_db_rate`);
* the rate calculator (`process_quote` in `src/build_db_new.py` and
  `src/build_duckdb.py`);
* the region-discovery merge step (`src/async_csg.py`
  `calc_naic_map_zip` / `calc_naic_map_county`);
* the region store (`src/build_duckdb.py`
  `MedicareDuckDBBuilder.save_region_data`, `get_region_hash`,
  `is_already_processed`);
* the delta detector (`src/spot_check.py` `spot_check_carrier`,
  `_compare_rates`);
* the copy-forward operation (`src/build_db_new.py`
  `MedicareSupplementRateDB.copy_rates`);
* quote deduplication (`winnow_quotes` in `src/build_db_new.py`,
  and the identical final pass of `filter_quote_fields` in
  `src/filter_utils.py`).

Modelling conventions: Python floats become `ℚ`; Python `round(x, 2)`
(round-half-to-even) becomes `round2`; ISO `YYYY-MM-DD` date strings,
which the code compares either lexicographically or after `CAST(... AS
DATE)` (both agree with chronological order), become `ℕ` in the
`YYYYMMDD` encoding; SQL tables become lists of rows; `uuid4` region
identifiers become a fresh-counter `ℕ` (uuids are modelled as never
colliding with existing ids).
-/

namespace BlitzQuote

/-! ## Temporal rate cache (`rate_store` in DuckDB)

One row of the `rate_store` table created in
`src/build_duckdb.py` (`_create_tables`): primary key
`(region_id, gender, tobacco, age, naic, plan, effective_date, state)`,
payload `rate` and `discount_rate`. -/

structure RateRow where
  region_id : String
  gender : String
  tobacco : ℕ
  age : ℕ
  naic : String
  plan : String
  state : String
  effective_date : ℕ
  rate : ℚ
  discount_rate : ℚ
  deriving DecidableEq, Repr

/-- The demographic key of a rate-cache lookup: every column of the
primary key except the effective date. -/
structure RateKey where
  region_id : String
  gender : String
  tobacco : ℕ
  age : ℕ
  naic : String
  plan : String
  state : String
  deriving DecidableEq, Repr

/-- The `WHERE` clause shared by both lookup queries: all key columns
equal. -/
def matchesKey (k : RateKey) (r : RateRow) : Bool :=
  decide (r.region_id = k.region_id) && decide (r.gender = k.gender) &&
  decide (r.tobacco = k.tobacco) && decide (r.age = k.age) &&
  decide (r.naic = k.naic) && decide (r.plan = k.plan) &&
  decide (r.state = k.state)

/-- `ORDER BY effective_date DESC LIMIT 1` over a result list: keep the
row with the largest effective date (first such row on ties; the
primary key makes effective dates unique per key, so ties cannot occur
in a well-formed store). -/
def pickLatest (l : List RateRow) : Option RateRow :=
  l.foldl (fun acc r =>
    match acc with
    | none => some r
    | some b => if b.effective_date < r.effective_date then some r else some b) none

/-- `RateSpotChecker._get_db_rate` (src/spot_check.py): select rows
matching the key with `effective_date <= ?`, order by effective date
descending, return the first (or `NotFound`). -/
def get_db_rate (db : List RateRow) (k : RateKey) (asOf : ℕ) : Option RateRow :=
  pickLatest (db.filter (fun r => matchesKey k r && decide (r.effective_date ≤ asOf)))

/-- The scalar subquery of
`DuckDBRateStore.get_most_recent_effective_date_query`
(src/app/models.py): `MAX(effective_date)` over rows matching the key
with `effective_date <= asOf` (`NULL`, i.e. `none`, on the empty set). -/
def maxEffOnOrBefore (db : List RateRow) (k : RateKey) (asOf : ℕ) : Option ℕ :=
  ((db.filter (fun r => matchesKey k r && decide (r.effective_date ≤ asOf))).map
    (·.effective_date)).max?

/-- The outer query of
`DuckDBRateStore.get_most_recent_effective_date_query`: all rows
matching the key whose effective date equals the subquery's maximum;
empty when the subquery is `NULL`. -/
def mostRecentEffectiveRows (db : List RateRow) (k : RateKey) (asOf : ℕ) : List RateRow :=
  match maxEffOnOrBefore db k asOf with
  | none => []
  | some m => db.filter (fun r => matchesKey k r && decide (r.effective_date = m))

theorem pickLatest_some_aux (l : List RateRow) (b : RateRow) :
    ∃ c, l.foldl (fun acc r =>
        match acc with
        | none => some r
        | some b => if b.effective_date < r.effective_date then some r else some b)
        (some b) = some c ∧ (c ∈ l ∨ c = b) ∧ b.effective_date ≤ c.effective_date ∧
      ∀ x ∈ l, x.effective_date ≤ c.effective_date := by
  induction l generalizing b with
  | nil => exact ⟨b, rfl, Or.inr rfl, le_refl _, by simp⟩
  | cons a t ih =>
    by_cases h : b.effective_date < a.effective_date
    · obtain ⟨c, hc, hmem, hle, hall⟩ := ih a
      refine ⟨c, ?_, ?_, ?_, ?_⟩
      · simpa [h] using hc
      · rcases hmem with h' | h'
        · exact Or.inl (List.mem_cons_of_mem _ h')
        · exact Or.inl (h' ▸ List.mem_cons_self _ _)
      · exact le_of_lt (lt_of_lt_of_le h hle)
      · intro x hx
        rcases List.mem_cons.mp hx with h' | h'
        · exact h' ▸ hle
        · exact hall x h'
    · obtain ⟨c, hc, hmem, hle, hall⟩ := ih b
      refine ⟨c, ?_, ?_, hle, ?_⟩
      · simpa [h] using hc
      · rcases hmem with h' | h'
        · exact Or.inl (List.mem_cons_of_mem _ h')
        · exact Or.inr h'
      · intro x hx
        rcases List.mem_cons.mp hx with h' | h'
        · exact h' ▸ le_trans (le_of_not_lt h) hle
        · exact hall x h'

theorem pickLatest_spec (l : List RateRow) :
    (l = [] → pickLatest l = none) ∧
    ∀ h : l ≠ [], ∃ c, pickLatest l = some c ∧ c ∈ l ∧
      ∀ x ∈ l, x.effective_date ≤ c.effective_date := by
  constructor
  · intro h; subst h; rfl
  · intro h
    match l with
    | [] => exact absurd rfl h
    | a :: t =>
      obtain ⟨c, hc, hmem, _, hall⟩ := pickLatest_some_aux t a
      refine ⟨c, ?_, ?_, ?_⟩
      · simpa [pickLatest] using hc
      · rcases hmem with h' | h'
        · exact List.mem_cons_of_mem _ h'
        · exact h' ▸ List.mem_cons_self _ _
      · intro x hx
        rcases List.mem_cons.mp hx with h' | h'
        · subst h'
          obtain ⟨c', hc', hmem', hle', hall'⟩ := pickLatest_some_aux t x
          rw [hc] at hc'
          exact (Option.some.inj hc') ▸ hle'
        · exact hall x h'

theorem pickLatest_eq_none_iff (l : List RateRow) : pickLatest l = none ↔ l = [] := by
  constructor
  · intro h
    by_contra hne
    obtain ⟨c, hc, -, -⟩ := (pickLatest_spec l).2 hne
    rw [h] at hc; exact Option.noConfusion hc
  · exact (pickLatest_spec l).1

/-- C1. **Temporal floor lookup.** For every store, key and as-of date:
(a) a returned row is a stored row matching the key whose effective
date is ≤ the as-of date and is the largest such effective date among
stored rows for that key; (b) the lookup returns `NotFound` (`none`)
exactly when no stored row for the key has an effective date ≤ the
as-of date; (c) the DuckDB `MAX`-subquery form of the lookup
(`get_most_recent_effective_date_query`) returns exactly the rows with
that same floor effective date, and is empty under the same `NotFound`
condition. -/
theorem temporal_lookup_floor (db : List RateRow) (k : RateKey) (asOf : ℕ) :
    (∀ r, get_db_rate db k asOf = some r →
      r ∈ db ∧ matchesKey k r = true ∧ r.effective_date ≤ asOf ∧
        ∀ x ∈ db, matchesKey k x = true → x.effective_date ≤ asOf →
          x.effective_date ≤ r.effective_date) ∧
    (get_db_rate db k asOf = none ↔
      ∀ x ∈ db, matchesKey k x = true → asOf < x.effective_date) ∧
    (∀ r, get_db_rate db k asOf = some r →
      mostRecentEffectiveRows db k asOf =
        db.filter (fun x => matchesKey k x && decide (x.effective_date = r.effective_date))) ∧
    (get_db_rate db k asOf = none → mostRecentEffectiveRows db k asOf = []) := by
  set cand := db.filter (fun r => matchesKey k r && decide (r.effective_date ≤ asOf)) with hcand
  have hmem_cand : ∀ x, x ∈ cand ↔ x ∈ db ∧ matchesKey k x = true ∧ x.effective_date ≤ asOf := by
    intro x
    simp [hcand, List.mem_filter, Bool.and_eq_true, decide_eq_true_eq, and_assoc]
  refine ⟨?_, ?_, ?_, ?_⟩
  · intro r hr
    unfold get_db_rate at hr
    rw [← hcand] at hr
    rcases eq_or_ne cand [] with hnil | hne
    · rw [hnil] at hr; exact Option.noConfusion hr
    · obtain ⟨c, hc, hcm, hall⟩ := (pickLatest_spec cand).2 hne
      rw [hr] at hc
      obtain rfl : r = c := Option.some.inj hc
      obtain ⟨hdb, hk, hle⟩ := (hmem_cand r).mp hcm
      refine ⟨hdb, hk, hle, ?_⟩
      intro x hx hkx hx_le
      exact hall x ((hmem_cand x).mpr ⟨hx, hkx, hx_le⟩)
  · unfold get_db_rate
    rw [← hcand, pickLatest_eq_none_iff]
    constructor
    · intro h x hx hkx
      by_contra hlt
      have : x ∈ cand := (hmem_cand x).mpr ⟨hx, hkx, le_of_not_lt hlt⟩
      rw [h] at this; exact absurd this (List.not_mem_nil x)
    · intro h
      by_contra hne
      obtain ⟨c, -, hcm, -⟩ := (pickLatest_spec cand).2 hne
      obtain ⟨hdb, hk, hle⟩ := (hmem_cand c).mp hcm
      exact absurd hle (not_le_of_lt (h c hdb hk))
  · intro r hr
    unfold get_db_rate at hr
    rw [← hcand] at hr
    rcases eq_or_ne cand [] with hnil | hne
    · rw [hnil] at hr; exact Option.noConfusion hr
    · obtain ⟨c, hc, hcm, hall⟩ := (pickLatest_spec cand).2 hne
      rw [hr] at hc
      obtain rfl : r = c := Option.some.inj hc
      obtain ⟨hdb, hk, hle⟩ := (hmem_cand r).mp hcm
      have hmax : maxEffOnOrBefore db k asOf = some r.effective_date := by
        unfold maxEffOnOrBefore
        rw [← hcand, List.max?_eq_some_iff']
        refine ⟨List.mem_map.mpr ⟨r, hcm, rfl⟩, ?_⟩
        intro a ha
        obtain ⟨x, hx, rfl⟩ := List.mem_map.mp ha
        exact hall x hx
      unfold mostRecentEffectiveRows
      rw [hmax]
  · intro h
    unfold get_db_rate at h
    rw [← hcand, pickLatest_eq_none_iff] at h
    have hmax : maxEffOnOrBefore db k asOf = none := by
      unfold maxEffOnOrBefore
      rw [← hcand, h]
      rfl
    unfold mostRecentEffectiveRows
    rw [hmax]

/-- A small concrete store: one key, rates filed at 2025-01-01 ($100)
and 2025-06-01 ($110), mirroring the spec's worked example. -/
def exampleKey : RateKey :=
  { region_id := "r1", gender := "M", tobacco := 0, age := 65,
    naic := "12345", plan := "G", state := "TX" }

def exampleRow (eff : ℕ) (rate : ℚ) : RateRow :=
  { region_id := "r1", gender := "M", tobacco := 0, age := 65,
    naic := "12345", plan := "G", state := "TX",
    effective_date := eff, rate := rate, discount_rate := rate }

def exampleDb : List RateRow := [exampleRow 20250101 100, exampleRow 20250601 110]

/-- Witness for C1: on the spec's worked example the lookup at
2025-03-15 returns the 2025-01-01 row ($100) and that row is maximal
among stored rows on or before the as-of date; moreover lookups at
2025-06-01 and 2024-12-01 behave as claimed ($110 resp. NotFound). -/
theorem temporal_lookup_floor_witness :
    (exampleRow 20250101 100 ∈ exampleDb ∧
      matchesKey exampleKey (exampleRow 20250101 100) = true ∧
      (exampleRow 20250101 100).effective_date ≤ 20250315 ∧
      ∀ x ∈ exampleDb, matchesKey exampleKey x = true → x.effective_date ≤ 20250315 →
        x.effective_date ≤ (exampleRow 20250101 100).effective_date) ∧
    get_db_rate exampleDb exampleKey 20250601 = some (exampleRow 20250601 110) ∧
    get_db_rate exampleDb exampleKey 20241201 = none := by
  refine ⟨(temporal_lookup_floor exampleDb exampleKey 20250315).1 _ (by decide), ?_, ?_⟩
  · decide
  · decide

/-! ## Rate calculator (`process_quote` in `src/build_db_new.py` and
`src/build_duckdb.py`)

Both copies compute, for each age offset `i`,
`rate_value = round(base_rate * reduce(mul, rate_mults[:i+1]), 2)` and
`discount_value = round(discount_mult * rate_value, 2)`, where
`rate_mults = [1.0] + [x + 1 for x in age_increases]`.  Python's
`round` rounds half to even. -/

/-- Python's `round` to an integer: round half to even.  Computed
directly on the numerator and denominator (`f = ⌊q⌋`, and the
fractional part `q - f` is compared with `1/2` via
`2 * (num - f * den)` versus `den`) so that it evaluates by kernel
reduction. -/
def roundHalfEven (q : ℚ) : ℤ :=
  let f : ℤ := q.num.fdiv q.den
  let t : ℤ := 2 * (q.num - f * q.den)
  if t < (q.den : ℤ) then f
  else if (q.den : ℤ) < t then f + 1
  else if f % 2 = 0 then f else f + 1

/-- Python's `round(x, 2)`: round to 2 decimal places, half to even. -/
def round2 (q : ℚ) : ℚ := (roundHalfEven (q * 100) : ℚ) / 100

/-- `rate_mults = [1.0] + [x + 1 for x in age_increases]`. -/
def rateMults (incs : List ℚ) : List ℚ := 1 :: incs.map (· + 1)

/-- One output row of `process_quote`: (age, rate, discount_rate). -/
structure CalcRate where
  age : ℕ
  rate : ℚ
  discount_rate : ℚ
  deriving DecidableEq, Repr

/-- The rate-calculation loop of `process_quote`: for each index `i`
into `rate_mults`, age `base_age + i`,
`rate = round2(base * prod(rate_mults[:i+1]))` and
`discount = round2(discount_mult * rate)`. -/
def processQuoteRates (base : ℚ) (baseAge : ℕ) (incs : List ℚ) (discountMult : ℚ) :
    List CalcRate :=
  (List.range (rateMults incs).length).map (fun i =>
    let rv := round2 (base * ((rateMults incs).take (i + 1)).prod)
    { age := baseAge + i, rate := rv, discount_rate := round2 (discountMult * rv) })

/-- Modelled from the spec: the spec's reading of the rate formula, in
which the result is "rounded to 2 decimal places at each compounding
step" — i.e. the rate for each age is obtained from the already-rounded
rate of the previous age: `r₀ = round2 base`,
`r_{k+1} = round2 (r_k * (1 + increase_k))`.  Used only to compare the
claim's wording against the code. -/
def stepwiseRates (base : ℚ) (baseAge : ℕ) (incs : List ℚ) (discountMult : ℚ) :
    List CalcRate :=
  (List.scanl (fun r inc => round2 (r * (1 + inc))) (round2 base) incs).enum.map
    (fun p => { age := baseAge + p.1, rate := p.2,
                discount_rate := round2 (discountMult * p.2) })

theorem processQuoteRates_eval_ce :
    processQuoteRates 100 65 [49/100000, 9] 1 =
      [{ age := 65, rate := 100, discount_rate := 100 },
       { age := 66, rate := 10005/100, discount_rate := 10005/100 },
       { age := 67, rate := 100049/100, discount_rate := 100049/100 }] := by
  have hr : List.range 3 = [0, 1, 2] := by decide
  simp [processQuoteRates, rateMults, hr]
  norm_num [round2, roundHalfEven, Int.fdiv]

theorem stepwiseRates_eval_ce :
    stepwiseRates 100 65 [49/100000, 9] 1 =
      [{ age := 65, rate := 100, discount_rate := 100 },
       { age := 66, rate := 10005/100, discount_rate := 10005/100 },
       { age := 67, rate := 2001/2, discount_rate := 2001/2 }] := by
  simp [stepwiseRates, List.scanl, List.enum, List.enumFrom]
  norm_num [round2, roundHalfEven, Int.fdiv]

/-- C2 counterexample: with base rate 100 at age 65 and age increases
[0.00049, 9.0], rounding at each compounding step (the claim's wording)
yields 1000.50 at age 67, but the code rounds the full multiplier
product once per age and yields 1000.49 — so the claim's "rounded at
each compounding step, not only once at the end" reading is false of
the code. -/
theorem rate_rounding_counterexample :
    (processQuoteRates 100 65 [49/100000, 9] 1).get? 2 =
      some { age := 67, rate := 100049/100, discount_rate := 100049/100 } ∧
    (stepwiseRates 100 65 [49/100000, 9] 1).get? 2 =
      some { age := 67, rate := 2001/2, discount_rate := 2001/2 } ∧
    processQuoteRates 100 65 [49/100000, 9] 1 ≠ stepwiseRates 100 65 [49/100000, 9] 1 := by
  rw [processQuoteRates_eval_ce, stepwiseRates_eval_ce]
  refine ⟨rfl, rfl, ?_⟩
  intro h
  have := List.head_eq_of_cons_eq (List.tail_eq_of_cons_eq (List.tail_eq_of_cons_eq h))
  have hrate := congrArg CalcRate.rate this
  norm_num at hrate

/-- C2 (amended). For every base rate, base age, age-increase list and
discount multiplier, the calculator emits one row per multiplier index:
row `i` has age `baseAge + i`,
`rate = round2 (base * Π (1 + increase_j) for j < i)` (the rounding is
applied once per age, to the full unrounded multiplier product), and
`discount_rate = round2 (discountMult * rate)`; the number of rows is
`incs.length + 1`. -/
theorem rate_compounding (base : ℚ) (baseAge : ℕ) (incs : List ℚ) (discountMult : ℚ)
    (i : ℕ) (hi : i < incs.length + 1) :
    (processQuoteRates base baseAge incs discountMult).length = incs.length + 1 ∧
    (processQuoteRates base baseAge incs discountMult).get? i =
      some { age := baseAge + i,
             rate := round2 (base * ((rateMults incs).take (i + 1)).prod),
             discount_rate := round2 (discountMult *
               round2 (base * ((rateMults incs).take (i + 1)).prod)) } := by
  have hlen : (rateMults incs).length = incs.length + 1 := by
    simp [rateMults]
  constructor
  · simp [processQuoteRates, hlen]
  · rw [processQuoteRates, List.get?_map, List.get?_range (by rw [hlen]; exact hi)]
    rfl

/-- Witness for C2 (amended), the spec's worked example: base rate $100
at age 65 with increases [0.05, 0.03] yields $105.00 at age 66 and
$108.15 at age 67 (and $100.00 at 65). -/
theorem rate_compounding_witness :
    (processQuoteRates 100 65 [1/20, 3/100] 1).get? 1 =
      some { age := 66, rate := 105, discount_rate := 105 } ∧
    (processQuoteRates 100 65 [1/20, 3/100] 1).get? 2 =
      some { age := 67, rate := 10815/100, discount_rate := 10815/100 } := by
  have h1 := (rate_compounding 100 65 [1/20, 3/100] 1 1 (by decide)).2
  have h2 := (rate_compounding 100 65 [1/20, 3/100] 1 2 (by decide)).2
  rw [h1, h2]
  constructor
  · simp only [rateMults, Option.some.injEq]
    norm_num [round2, roundHalfEven, Int.fdiv]
  · simp only [rateMults, Option.some.injEq]
    norm_num [round2, roundHalfEven, Int.fdiv]

/-! ## Region discovery: merging a returned location group into the
candidate list (`src/async_csg.py`)

In `calc_naic_map_zip` a probe's returned ZIP group `zbase` is matched
against the candidate list with
`next((i for i, existing in enumerate(lookup_list) if existing == zbase), None)`:
the first candidate that is **exactly equal** (as a set) is replaced by
`zbase ∪ {z}`; otherwise `zbase ∪ {z}` is appended as a new candidate.
`calc_naic_map_county` (lines 941-950) does the same with county sets.
The ≈80%-overlap union rule appears only in
`src/build_optimized_db_combinations.py` (`overlap > 0.8`), not in
these functions. -/

/-- The candidate-merge step of `calc_naic_map_zip` /
`calc_naic_map_county`: replace the first candidate set exactly equal
to the returned group by the group plus the probed location, else
append the group plus the probed location as a new candidate.
(Recursive form of `findIdx?` + `set`.) -/
def mergeGroupStep : List (Finset String) → Finset String → String → List (Finset String)
  | [], zbase, z => [insert z zbase]
  | s :: rest, zbase, z =>
    if s = zbase then insert z zbase :: rest
    else s :: mergeGroupStep rest zbase z

/-- The spec's high-overlap criterion, as implemented in
`build_optimized_db_combinations.py`:
`|existing ∩ group| / |group| > 0.8`. -/
def highOverlap (existing group : Finset String) : Prop :=
  4 * group.card < 5 * ((existing ∩ group).card)

instance (e g : Finset String) : Decidable (highOverlap e g) := by
  unfold highOverlap; infer_instance

def ceRegion : Finset String :=
  {"01", "02", "03", "04", "05", "06", "07", "08", "09", "10"}

def ceGroup : Finset String :=
  {"01", "02", "03", "04", "05", "06", "07", "08", "09"}

/-- C3 counterexample: a returned group that overlaps an existing
candidate at 100% of the group (well above the 80% threshold) but is
not set-equal to it is **not** unioned into the candidate: the merge
step of `calc_naic_map_zip` appends it as a new, separate region. -/
theorem merge_overlap_counterexample :
    highOverlap ceRegion ceGroup ∧ ceGroup ≠ ceRegion ∧
    mergeGroupStep [ceRegion] ceGroup "99" = [ceRegion, insert "99" ceGroup] ∧
    (mergeGroupStep [ceRegion] ceGroup "99").length = 2 := by
  refine ⟨by decide, by decide, ?_, ?_⟩
  · have h : ¬(ceRegion = ceGroup) := by decide
    simp [mergeGroupStep, h]
  · have h : ¬(ceRegion = ceGroup) := by decide
    simp [mergeGroupStep, h]

/-- C3 (amended). The merge step unions a returned group into an
existing candidate exactly when the group is set-equal to that
candidate (the probed location is then added to it, and no new region
is created, so the candidate count is unchanged); a group that is not
exactly equal to any candidate — regardless of how much it overlaps
one — is appended as a new candidate region. -/
theorem merge_exact_equality (ll : List (Finset String)) (zbase : Finset String) (z : String) :
    (zbase ∈ ll → (mergeGroupStep ll zbase z).length = ll.length) ∧
    (zbase ∉ ll → mergeGroupStep ll zbase z = ll ++ [insert z zbase]) := by
  induction ll with
  | nil =>
    constructor
    · intro h; exact absurd h (List.not_mem_nil _)
    · intro _; rfl
  | cons s rest ih =>
    constructor
    · intro hmem
      by_cases hs : s = zbase
      · simp [mergeGroupStep, hs]
      · have : zbase ∈ rest := by
          rcases List.mem_cons.mp hmem with h | h
          · exact absurd h.symm hs
          · exact h
        simp [mergeGroupStep, hs, ih.1 this]
    · intro hmem
      have hs : ¬(s = zbase) := fun h => hmem (h ▸ List.mem_cons_self _ _)
      have : zbase ∉ rest := fun h => hmem (List.mem_cons_of_mem _ h)
      simp [mergeGroupStep, hs, ih.2 this]

/-- Witness for C3 (amended): an exactly-equal group is merged (no new
region: candidate count stays 1), and a non-equal group is appended. -/
theorem merge_exact_equality_witness :
    (mergeGroupStep [ceGroup] ceGroup "99").length = 1 ∧
    mergeGroupStep [ceRegion] ceGroup "99" = [ceRegion] ++ [insert "99" ceGroup] := by
  constructor
  · exact (merge_exact_equality [ceGroup] ceGroup "99").1 (by decide)
  · exact (merge_exact_equality [ceRegion] ceGroup "99").2 (by decide)

/-! ## Delta detector (`src/spot_check.py`)

`spot_check_carrier` iterates regions × demographics × plans; once a
comparison reports a change the remaining combinations are skipped
(`if rates_changed: continue`) and the flag is returned.
`_compare_rates` reports a change when the cached rate is missing, when
the source returns no rate, or when any returned quote differs from the
cached one in rate value or in the source's reported effective date. -/

structure ApiRatePoint where
  rate : ℚ
  effective_date : Option String
  deriving DecidableEq, Repr

/-- One sampled point: the cached `(rate, effective_date)` for the
source date (if any) and the source's quotes for the target date. -/
structure SamplePoint where
  dbRate : Option (ℚ × String)
  apiRates : List ApiRatePoint
  deriving DecidableEq, Repr

/-- `RateSpotChecker._compare_rates`: true (changed) when the cached
rate is missing, the source returned nothing, or some returned quote
differs in rate value or reported effective date. -/
def compare_rates (p : SamplePoint) : Bool :=
  match p.dbRate with
  | none => true
  | some dr =>
    if p.apiRates.isEmpty then true
    else p.apiRates.any (fun a =>
      !(decide (a.rate = dr.1) && decide (a.effective_date = some dr.2)))

/-- The sampling loop of `RateSpotChecker.spot_check_carrier`: fold the
`rates_changed` flag over the sampled points, skipping comparisons once
the flag is set. -/
def spot_check_carrier (pts : List SamplePoint) : Bool :=
  pts.foldl (fun changed p => if changed then changed else compare_rates p) false

theorem spot_check_foldl_or (pts : List SamplePoint) (b : Bool) :
    pts.foldl (fun changed p => if changed then changed else compare_rates p) b =
      (b || pts.any compare_rates) := by
  induction pts generalizing b with
  | nil => simp
  | cons p rest ih =>
    cases b with
    | true => simp [List.foldl_cons, ih]
    | false => simp [List.foldl_cons, ih]

theorem compare_rates_false_iff (p : SamplePoint) :
    compare_rates p = false ↔
      ∃ r d, p.dbRate = some (r, d) ∧ p.apiRates ≠ [] ∧
        ∀ a ∈ p.apiRates, a.rate = r ∧ a.effective_date = some d := by
  rcases hdb : p.dbRate with _ | ⟨r, d⟩
  · rw [compare_rates, hdb]
    simp
  · rw [compare_rates, hdb]
    by_cases hemp : p.apiRates.isEmpty
    · have hnil : p.apiRates = [] := List.isEmpty_iff.mp hemp
      simp [hemp, hnil]
    · rw [Bool.not_eq_true] at hemp
      have hnil : p.apiRates ≠ [] := by
        intro h; simp [h] at hemp
      rw [hemp]
      simp only [Bool.false_eq_true, if_false, List.any_eq_false, Bool.not_eq_true',
        Bool.not_eq_false, Bool.and_eq_true, decide_eq_true_eq]
      constructor
      · intro h
        exact ⟨r, d, rfl, hnil, fun a ha => h a ha⟩
      · rintro ⟨r', d', hdr, -, hall⟩ a ha
        have h1 : r = r' := congrArg Prod.fst (Option.some.inj hdr)
        have h2 : d = d' := congrArg Prod.snd (Option.some.inj hdr)
        subst h1; subst h2
        exact hall a ha

/-- C5. The delta detector returns true exactly when some sampled point
compares as changed — even if every other point matches — and returns
false exactly when every sampled point matches; and a point "matches"
exactly when the cached rate exists, the source returned at least one
quote, and every returned quote agrees with the cache in both rate
value and reported effective date. -/
theorem delta_detector_any (pts : List SamplePoint) :
    (spot_check_carrier pts = true ↔ ∃ p ∈ pts, compare_rates p = true) ∧
    (spot_check_carrier pts = false ↔ ∀ p ∈ pts, compare_rates p = false) ∧
    (∀ p : SamplePoint, compare_rates p = false ↔
      ∃ r d, p.dbRate = some (r, d) ∧ p.apiRates ≠ [] ∧
        ∀ a ∈ p.apiRates, a.rate = r ∧ a.effective_date = some d) := by
  have hfold : spot_check_carrier pts = pts.any compare_rates := by
    simpa using spot_check_foldl_or pts false
  refine ⟨?_, ?_, fun p => compare_rates_false_iff p⟩
  · rw [hfold]
    simp [List.any_eq_true]
  · rw [hfold]
    simp [List.any_eq_false]

def pointMatch : SamplePoint :=
  { dbRate := some (100, "2025-01-01"),
    apiRates := [{ rate := 100, effective_date := some "2025-01-01" }] }

def pointDiff : SamplePoint :=
  { dbRate := some (100, "2025-01-01"),
    apiRates := [{ rate := 110, effective_date := some "2025-01-01" }] }

/-- Witness for C5: with three sampled points of which only one differs
(the majority match), the detector still reports a change. -/
theorem delta_detector_any_witness :
    spot_check_carrier [pointMatch, pointMatch, pointDiff] = true :=
  (delta_detector_any [pointMatch, pointMatch, pointDiff]).1.mpr
    ⟨pointDiff, by decide, by decide⟩

/-! ## Orphan detection (`MedicareDuckDBBuilder.is_already_processed`
in `src/build_duckdb.py`)

`processed_data` rows carry `success` and an optional comma-separated
`api_effective_date` list.  The check finds the successful record for
`(state, naic, effective_date)` and re-validates it against actual
`rate_store` rows (joined with `region_mapping`); with per-API-date
counts when API dates were recorded, otherwise against any rate row
for the carrier/state. -/

structure ProcRecord where
  state : String
  naic : String
  effective_date : ℕ
  success : Bool
  api_effective_date : Option (List ℕ)
  deriving DecidableEq, Repr

/-- One row of `region_mapping` (DuckDB), as used by the re-validation
join `rate_store r JOIN region_mapping m ON r.region_id = m.region_id
AND r.naic = m.naic`. -/
structure RegionMapRow where
  zip_code : String
  county : String
  region_id : String
  naic : String
  mapping_type : String
  deriving DecidableEq, Repr

/-- `SELECT COUNT(*) FROM rate_store r JOIN region_mapping m ... WHERE
r.naic = ? AND r.state = ? [AND r.effective_date = ?]` is positive. -/
def rateRowBacked (rates : List RateRow) (mapping : List RegionMapRow)
    (naic state : String) (d : Option ℕ) : Bool :=
  rates.any (fun r => decide (r.naic = naic) && decide (r.state = state) &&
    (match d with
     | none => true
     | some dd => decide (r.effective_date = dd)) &&
    mapping.any (fun m => decide (m.region_id = r.region_id) && decide (m.naic = r.naic)))

/-- `MedicareDuckDBBuilder.is_already_processed`: find the successful
ProcessingRecord; if it recorded API effective dates, require rate rows
for every one of them; otherwise require any rate row for the
carrier/state; with no record at all, not processed. -/
def is_already_processed (processed : List ProcRecord) (rates : List RateRow)
    (mapping : List RegionMapRow) (state naic : String) (eff : ℕ) : Bool :=
  match processed.find? (fun p => decide (p.state = state) && decide (p.naic = naic) &&
      decide (p.effective_date = eff) && p.success) with
  | none => false
  | some p =>
    match p.api_effective_date with
    | some ds => ds.all (fun d => rateRowBacked rates mapping naic state (some d))
    | none => rateRowBacked rates mapping naic state none

theorem rateRowBacked_false (rates : List RateRow) (mapping : List RegionMapRow)
    (naic state : String) (d : Option ℕ)
    (h : ∀ r ∈ rates, ¬(r.naic = naic ∧ r.state = state)) :
    rateRowBacked rates mapping naic state d = false := by
  rw [rateRowBacked, List.any_eq_false]
  intro r hr
  intro hcontr
  simp only [Bool.and_eq_true, decide_eq_true_eq] at hcontr
  exact h r hr ⟨hcontr.1.1.1, hcontr.1.1.2⟩

/-- C6. **Orphan detection.** For any processing ledger whose records
never carry an empty API-date list (a nonempty `api_effective_date`
string always splits into at least one date), if the rate store holds
no row at all for the carrier and jurisdiction, then
`is_already_processed` returns false for every requested effective
date — a success-marked ProcessingRecord with zero backing RateQuote
rows is treated as not processed. -/
theorem orphan_record_not_processed (processed : List ProcRecord) (rates : List RateRow)
    (mapping : List RegionMapRow) (state naic : String) (eff : ℕ)
    (hds : ∀ p ∈ processed, p.api_effective_date ≠ some ([] : List ℕ))
    (hnone : ∀ r ∈ rates, ¬(r.naic = naic ∧ r.state = state)) :
    is_already_processed processed rates mapping state naic eff = false := by
  rcases hfind : processed.find? (fun p => decide (p.state = state) && decide (p.naic = naic) &&
      decide (p.effective_date = eff) && p.success) with _ | p
  · simp [is_already_processed, hfind]
  · have hp : p ∈ processed := List.mem_of_find?_eq_some hfind
    rcases hapi : p.api_effective_date with _ | ds
    · simp [is_already_processed, hfind, hapi,
        rateRowBacked_false rates mapping naic state none hnone]
    · rcases ds with _ | ⟨d, ds'⟩
      · exact absurd hapi (hds p hp)
      · simp [is_already_processed, hfind, hapi,
          rateRowBacked_false rates mapping naic state (some d) hnone]

def orphanRecord : ProcRecord :=
  { state := "TX", naic := "12345", effective_date := 20250101,
    success := true, api_effective_date := some [20250101] }

def strayRate : RateRow :=
  { region_id := "r9", gender := "F", tobacco := 0, age := 70,
    naic := "99999", plan := "N", state := "CA",
    effective_date := 20250101, rate := 80, discount_rate := 80 }

/-- Witness for C6: a success-marked record for TX/12345/2025-01-01
whose rate store holds no TX/12345 row (only an unrelated carrier's
row) is reported as not processed. -/
theorem orphan_record_not_processed_witness :
    is_already_processed [orphanRecord] [strayRate] [] "TX" "12345" 20250101 = false :=
  orphan_record_not_processed [orphanRecord] [strayRate] [] "TX" "12345" 20250101
    (by decide) (by decide)

/-! ## Quote filtering and rate-record construction
(`filter_quote` in `src/filter_utils.py`,
`MedicareDuckDBBuilder.process_quote` in `src/build_duckdb.py`)

`filter_quote` keeps only a fixed field set — which does **not**
include `effective_date` — drops `select` quotes and non-standard
rating classes (with a special case for carrier 79413), and converts
the monthly rate from cents.  `process_quote` then stores
`quote.get('effective_date')` — the date field of the *source's
response* — falling back to `filtered.get('effective_date')`, which is
always absent (`None`) because `filter_quote` drops it; the requested
date is not even a parameter of `process_quote`. -/

/-- One raw quote record of the source's response, with the fields the
embedded code reads. -/
structure RawQuote where
  naic : String
  name : String
  select : Bool
  rating_class : Option String
  age : ℕ
  gender : String
  tobacco : Bool
  plan : String
  rate_month_cents : ℤ
  age_increases : List ℚ
  discount_values : List ℚ
  location_zip5 : List String
  location_county : List String
  effective_date : Option String
  deriving DecidableEq, Repr

/-- Python's `pat in s` substring test: `s.split(pat)` has more than
one piece exactly when `pat` occurs in `s` (for nonempty `pat`). -/
def strContainsSub (s pat : String) : Bool := (s.splitOn pat).length ≥ 2

/-- The rating-class gate of `filter_quote`: the class must be one of
`None`, `''`, `'Standard'`, `'Achieve'`, `'Value'`, except that carrier
79413 also passes classes containing `'Standard'` but not
`'Household'`. -/
def ratingClassAllowed (naic : String) (rc : Option String) : Bool :=
  match rc with
  | none => true
  | some c =>
    decide (c = "") || decide (c = "Standard") || decide (c = "Achieve") ||
    decide (c = "Value") ||
    (decide (naic = "79413") && strContainsSub c "Standard" && !(strContainsSub c "Household"))

/-- The fields `filter_quote` returns (note: no effective date — it is
not in `desired_fields`). -/
structure FilteredQuote where
  age : ℕ
  gender : String
  tobacco : Bool
  plan : String
  rate : ℚ
  age_increases : List ℚ
  discount_values : List ℚ
  naic : String
  location : List String
  deriving DecidableEq, Repr

/-- `filter_quote` (src/filter_utils.py). -/
def filter_quote (q : RawQuote) : Option FilteredQuote :=
  if q.select then none
  else if ratingClassAllowed q.naic q.rating_class then
    some { age := q.age, gender := q.gender, tobacco := q.tobacco, plan := q.plan,
           rate := (q.rate_month_cents : ℚ) / 100,
           age_increases := q.age_increases, discount_values := q.discount_values,
           naic := q.naic,
           location := if q.location_zip5.length > 0 then q.location_zip5
                       else q.location_county }
  else none

/-- One row produced by `MedicareDuckDBBuilder.process_quote` for the
`rate_store` table. -/
structure DuckRateRecord where
  region_id : String
  gender : String
  tobacco : ℕ
  age : ℕ
  naic : String
  plan : String
  rate : ℚ
  discount_rate : ℚ
  effective_date : Option String
  state : String
  deriving DecidableEq, Repr

/-- Python truthiness of an optional string (`if not effective_date`):
`None` and `''` are falsy. -/
def pyTruthyStr : Option String → Option String
  | none => none
  | some s => if s = "" then none else some s

/-- `MedicareDuckDBBuilder.process_quote` (src/build_duckdb.py): filter
the quote, take the effective date from the response (the fallback
`filtered.get('effective_date')` is always `None` since `filter_quote`
drops the field), and emit one record per age via the shared
compounding loop. -/
def process_quote (q : RawQuote) (region_id : String) (state : String) :
    List DuckRateRecord :=
  match filter_quote q with
  | none => []
  | some f =>
    let eff : Option String := pyTruthyStr q.effective_date
    let discountMult : ℚ :=
      match f.discount_values.head? with
      | some v => 1 - v
      | none => 1
    (processQuoteRates f.rate f.age f.age_increases discountMult).map (fun c =>
      { region_id := region_id, gender := f.gender,
        tobacco := if f.tobacco then 1 else 0,
        age := c.age, naic := f.naic, plan := f.plan, rate := c.rate,
        discount_rate := c.discount_rate, effective_date := eff, state := state })

/-- C7. **Source date of record.** Whenever the source's response
carries a (nonempty) effective date, every rate record built from that
response stores exactly that date.  The requested query date is not an
input of `process_quote` at all, so the stored date can never be the
requested one when the two differ. -/
theorem stored_effective_date_is_sources (q : RawQuote) (region_id state s : String)
    (hq : q.effective_date = some s) (hs : s ≠ "") :
    ∀ rec ∈ process_quote q region_id state, rec.effective_date = some s := by
  intro rec hrec
  rw [process_quote] at hrec
  rcases hf : filter_quote q with _ | f
  · rw [hf] at hrec
    exact absurd hrec (List.not_mem_nil rec)
  · rw [hf] at hrec
    obtain ⟨c, -, rfl⟩ := List.mem_map.mp hrec
    show pyTruthyStr q.effective_date = some s
    rw [hq, pyTruthyStr, if_neg hs]

def exRawQuote : RawQuote :=
  { naic := "12345", name := "Example Life", select := false, rating_class := none,
    age := 65, gender := "M", tobacco := false, plan := "G",
    rate_month_cents := 10000, age_increases := [1/20],
    discount_values := [], location_zip5 := ["75001"], location_county := [],
    effective_date := some "2025-02-01" }

/-- Witness for C7: every record built from a concrete response quote
whose source-reported effective date is 2025-02-01 stores exactly that
date. -/
theorem stored_effective_date_is_sources_witness :
    (process_quote exRawQuote "r1" "TX").map DuckRateRecord.effective_date =
      List.replicate (process_quote exRawQuote "r1" "TX").length
        (some "2025-02-01") := by
  rw [List.eq_replicate]
  refine ⟨by rw [List.length_map], ?_⟩
  intro b hb
  obtain ⟨rec, hrec, rfl⟩ := List.mem_map.mp hb
  exact stored_effective_date_is_sources exRawQuote "r1" "TX" "2025-02-01" rfl
    (by decide) rec hrec

/-! ## Copy-forward (`MedicareSupplementRateDB.copy_rates` in
`src/build_db_new.py`)

The build_db_new SQLite `rate_store` has `PRIMARY KEY (key, effective_date)`
with `key = "state:naic:label"` and a JSON `value`.  `copy_rates` reads every
row of the source date (`get_rates_for_date`, which skips falsy values) and
writes each one at the target date with `INSERT OR REPLACE`; it touches no
quote-source client.  The operation trace of the embedding records each
database write; a source fetch is a distinct constructor that `copy_rates`
never emits. -/

structure KVRow where
  key : String
  effective_date : String
  value : String
  deriving DecidableEq, Repr

inductive CopyOp where
  | dbWrite (row : KVRow)
  | sourceFetch
  deriving DecidableEq, Repr

/-- SQL `LIKE 'pre%'` on the composite key, on the character lists so it
evaluates by kernel reduction. -/
def strStartsWith (s pre : String) : Bool := pre.data.isPrefixOf s.data

/-- `get_rates_for_date`: rows whose key is under `state:naic:` at the given
effective date with a truthy value. -/
def get_rates_for_date (db : List KVRow) (state naic date : String) : List KVRow :=
  db.filter (fun r => strStartsWith r.key (state ++ ":" ++ naic ++ ":") &&
    decide (r.effective_date = date) && decide (r.value ≠ ""))

/-- `INSERT OR REPLACE` keyed by `(key, effective_date)`. -/
def insertOrReplace (db : List KVRow) (r : KVRow) : List KVRow :=
  db.filter (fun x => !(decide (x.key = r.key) && decide (x.effective_date = r.effective_date)))
    ++ [r]

def copyWrites (rows : List KVRow) (tgt : String) : List KVRow :=
  rows.map (fun r => { key := r.key, effective_date := tgt, value := r.value })

def applyWrites (db : List KVRow) (ws : List KVRow) : List KVRow :=
  ws.foldl insertOrReplace db

/-- `copy_rates`: fetch the source-date rows, then insert-or-replace each at
the target date.  Also returns the operation trace (database writes only —
the function has no quote-source client). -/
def copy_rates (db : List KVRow) (state naic src tgt : String) : List KVRow × List CopyOp :=
  let rows := get_rates_for_date db state naic src
  (applyWrites db (copyWrites rows tgt), (copyWrites rows tgt).map CopyOp.dbWrite)

/-- The cache lookup by exact `(key, effective_date)`. -/
def getValue (db : List KVRow) (k eff : String) : Option String :=
  (db.find? (fun r => decide (r.key = k) && decide (r.effective_date = eff))).map (·.value)

theorem find?_filter_of_imp {p q : KVRow → Bool} (l : List KVRow)
    (himp : ∀ x, p x = true → q x = true) :
    (l.filter q).find? p = l.find? p := by
  induction l with
  | nil => rfl
  | cons a t ih =>
    by_cases hq : q a = true
    · rw [List.filter_cons_of_pos hq]
      by_cases hp : p a = true
      · rw [List.find?_cons_of_pos _ hp, List.find?_cons_of_pos _ hp]
      · rw [List.find?_cons_of_neg _ hp, List.find?_cons_of_neg _ hp, ih]
    · have hp : ¬(p a = true) := fun h => hq (himp a h)
      rw [List.filter_cons_of_neg (by simpa using hq), List.find?_cons_of_neg _ hp, ih]

theorem find?_unique {p : KVRow → Bool} {l : List KVRow} {r : KVRow}
    (hmem : r ∈ l) (hp : p r = true) (huniq : ∀ x ∈ l, p x = true → x = r) :
    l.find? p = some r := by
  induction l with
  | nil => exact absurd hmem (List.not_mem_nil r)
  | cons a t ih =>
    by_cases hpa : p a = true
    · rw [List.find?_cons_of_pos _ hpa]
      rw [huniq a (List.mem_cons_self a t) hpa]
    · rw [List.find?_cons_of_neg _ hpa]
      have hrt : r ∈ t := by
        rcases List.mem_cons.mp hmem with h | h
        · exact absurd (h ▸ hp) hpa
        · exact h
      exact ih hrt (fun x hx hpx => huniq x (List.mem_cons_of_mem a hx) hpx)

theorem getValue_insert_hit (db : List KVRow) (r : KVRow) :
    getValue (insertOrReplace db r) r.key r.effective_date = some r.value := by
  unfold getValue insertOrReplace
  rw [List.find?_append]
  have h1 : (db.filter (fun x => !(decide (x.key = r.key) && decide (x.effective_date = r.effective_date)))).find?
      (fun x => decide (x.key = r.key) && decide (x.effective_date = r.effective_date)) = none := by
    rw [List.find?_eq_none]
    intro x hx
    have := (List.mem_filter.mp hx).2
    simp only [Bool.not_eq_true'] at this
    simp [this]
  rw [h1]
  simp [List.find?]

theorem getValue_insert_miss (db : List KVRow) (r : KVRow) (k eff : String)
    (h : ¬(k = r.key ∧ eff = r.effective_date)) :
    getValue (insertOrReplace db r) k eff = getValue db k eff := by
  unfold getValue insertOrReplace
  rw [List.find?_append]
  have h2 : ([r].find? (fun x => decide (x.key = k) && decide (x.effective_date = eff))) = none := by
    rw [List.find?_eq_none]
    intro x hx
    have hxr : x = r := by simpa using hx
    subst hxr
    intro hcontr
    simp only [Bool.and_eq_true, decide_eq_true_eq] at hcontr
    exact h ⟨hcontr.1.symm, hcontr.2.symm⟩
  rw [h2]
  rw [find?_filter_of_imp]
  · cases db.find? (fun x => decide (x.key = k) && decide (x.effective_date = eff)) <;> rfl
  · intro x hx
    simp only [Bool.and_eq_true, decide_eq_true_eq] at hx
    simp only [Bool.not_eq_true', Bool.and_eq_false_iff, decide_eq_false_iff_not]
    by_contra hcontr
    push_neg at hcontr
    exact h ⟨hx.1 ▸ hcontr.1.symm ▸ rfl, hx.2 ▸ hcontr.2.symm ▸ rfl⟩

theorem getValue_applyWrites_untouched (ws : List KVRow) (db : List KVRow) (k eff : String)
    (h : ∀ w ∈ ws, ¬(k = w.key ∧ eff = w.effective_date)) :
    getValue (applyWrites db ws) k eff = getValue db k eff := by
  induction ws generalizing db with
  | nil => rfl
  | cons w rest ih =>
    rw [applyWrites, List.foldl_cons]
    rw [show List.foldl insertOrReplace (insertOrReplace db w) rest =
      applyWrites (insertOrReplace db w) rest from rfl]
    rw [ih (insertOrReplace db w) (fun x hx => h x (List.mem_cons_of_mem w hx))]
    exact getValue_insert_miss db w k eff (h w (List.mem_cons_self w rest))

theorem getValue_applyWrites_hit (tgt : String) :
    ∀ (ws : List KVRow) (db : List KVRow) (w : KVRow),
      (ws.map (·.key)).Nodup → w ∈ ws → (∀ x ∈ ws, x.effective_date = tgt) →
      getValue (applyWrites db ws) w.key tgt = some w.value := by
  intro ws
  induction ws with
  | nil =>
    intro db w _ hw _
    exact absurd hw (List.not_mem_nil w)
  | cons x rest ih =>
    intro db w hnd hw hsame
    rw [applyWrites, List.foldl_cons]
    rw [show List.foldl insertOrReplace (insertOrReplace db x) rest =
      applyWrites (insertOrReplace db x) rest from rfl]
    rw [List.map_cons, List.nodup_cons] at hnd
    rcases List.mem_cons.mp hw with hwx | hwrest
    · subst hwx
      have hkeys : ∀ y ∈ rest, ¬(w.key = y.key ∧ tgt = y.effective_date) := by
        intro y hy hcontr
        exact hnd.1 (List.mem_map.mpr ⟨y, hy, hcontr.1.symm⟩)
      rw [getValue_applyWrites_untouched rest (insertOrReplace db w) w.key tgt hkeys]
      have heff : w.effective_date = tgt := hsame w (List.mem_cons_self w rest)
      rw [← heff]
      exact getValue_insert_hit db w
    · exact ih (insertOrReplace db x) w hnd.2 hwrest
        (fun y hy => hsame y (List.mem_cons_of_mem x hy))

theorem nodup_keys_of_nodup_pairs (l : List KVRow) (c : String)
    (hnd : (l.map (fun r => (r.key, r.effective_date))).Nodup)
    (hc : ∀ r ∈ l, r.effective_date = c) :
    (l.map (·.key)).Nodup := by
  induction l with
  | nil => exact List.nodup_nil
  | cons a t ih =>
    rw [List.map_cons, List.nodup_cons] at hnd ⊢
    refine ⟨?_, ih hnd.2 (fun r hr => hc r (List.mem_cons_of_mem a hr))⟩
    intro hmem
    obtain ⟨x, hx, hkey⟩ := List.mem_map.mp hmem
    apply hnd.1
    refine List.mem_map.mpr ⟨x, hx, ?_⟩
    have h1 : x.effective_date = c := hc x (List.mem_cons_of_mem a hx)
    have h2 : a.effective_date = c := hc a (List.mem_cons_self a t)
    rw [h1, h2, hkey]

/-- C8. **Copy-forward.** For a cache whose `(key, effective_date)` pairs are
unique (the table's primary key) and distinct source/target dates: after
`copy_rates`, looking up any copied key at the target date returns the same
value as at the source date (both equal the copied row's value), and the
operation's trace consists of database writes only — no quote-source fetch
is ever emitted. -/
theorem copy_forward_correct (db : List KVRow) (state naic src tgt : String)
    (hnd : (db.map (fun r => (r.key, r.effective_date))).Nodup) (hne : src ≠ tgt) :
    (∀ r ∈ get_rates_for_date db state naic src,
       getValue (copy_rates db state naic src tgt).1 r.key tgt =
         getValue (copy_rates db state naic src tgt).1 r.key src ∧
       getValue (copy_rates db state naic src tgt).1 r.key tgt = some r.value) ∧
    ∀ op ∈ (copy_rates db state naic src tgt).2, ∃ w, op = CopyOp.dbWrite w := by
  set rows := get_rates_for_date db state naic src with hrows
  set ws := copyWrites rows tgt with hws
  have hrows_mem : ∀ r ∈ rows, r ∈ db ∧ r.effective_date = src := by
    intro r hr
    have := List.mem_filter.mp (hrows ▸ hr)
    refine ⟨this.1, ?_⟩
    have h2 := this.2
    simp only [Bool.and_eq_true, decide_eq_true_eq] at h2
    exact h2.1.2
  have hrows_pairs : (rows.map (fun r => (r.key, r.effective_date))).Nodup := by
    have hsub : rows.Sublist db := hrows ▸ List.filter_sublist db
    exact (hsub.map (fun r => (r.key, r.effective_date))).nodup hnd
  have hrows_keys : (rows.map (·.key)).Nodup := by
    refine nodup_keys_of_nodup_pairs rows src hrows_pairs ?_
    intro r hr
    exact (hrows_mem r hr).2
  have hws_keys : (ws.map (·.key)).Nodup := by
    have : ws.map (·.key) = rows.map (·.key) := by
      rw [hws, copyWrites, List.map_map]
      rfl
    rw [this]
    exact hrows_keys
  have hws_eff : ∀ x ∈ ws, x.effective_date = tgt := by
    intro x hx
    obtain ⟨r, -, rfl⟩ := List.mem_map.mp (hws ▸ hx)
    rfl
  constructor
  · intro r hr
    have hfin : (copy_rates db state naic src tgt).1 = applyWrites db ws := by
      rw [copy_rates]
    have hw : ({ key := r.key, effective_date := tgt, value := r.value } : KVRow) ∈ ws :=
      hws ▸ List.mem_map.mpr ⟨r, hr, rfl⟩
    have htgt : getValue (applyWrites db ws) r.key tgt = some r.value :=
      getValue_applyWrites_hit tgt ws db
        ({ key := r.key, effective_date := tgt, value := r.value } : KVRow) hws_keys hw hws_eff
    have hsrc_pres : getValue (applyWrites db ws) r.key src = getValue db r.key src := by
      refine getValue_applyWrites_untouched ws db r.key src ?_
      intro w hwmem hcontr
      exact hne (hcontr.2.trans (hws_eff w hwmem))
    have hsrc_val : getValue db r.key src = some r.value := by
      rw [getValue]
      have hmem := (hrows_mem r hr).1
      have heff := (hrows_mem r hr).2
      rw [find?_unique hmem (by simp [heff]) ?_]
      · rfl
      · intro x hx hpx
        simp only [Bool.and_eq_true, decide_eq_true_eq] at hpx
        have : (x.key, x.effective_date) = (r.key, r.effective_date) := by
          rw [hpx.1, hpx.2, heff]
        exact List.inj_on_of_nodup_map hnd hx hmem this
    rw [hfin]
    exact ⟨by rw [htgt, hsrc_pres, hsrc_val], htgt⟩
  · intro op hop
    have : (copy_rates db state naic src tgt).2 = ws.map CopyOp.dbWrite := by
      rw [copy_rates]
    rw [this] at hop
    obtain ⟨w, -, rfl⟩ := List.mem_map.mp hop
    exact ⟨w, rfl⟩

def exCopyRow : KVRow :=
  { key := "TX:12345:r1", effective_date := "2025-01-01", value := "100.0" }

def exCopyDb : List KVRow := [exCopyRow]

/-- Witness for C8: copying TX/12345 rates from 2025-01-01 to 2025-02-01 in a
one-row cache makes the target-date lookup equal the source-date lookup (both
return the copied value), with a trace of writes only. -/
theorem copy_forward_correct_witness :
    (getValue (copy_rates exCopyDb "TX" "12345" "2025-01-01" "2025-02-01").1
        "TX:12345:r1" "2025-02-01" =
      getValue (copy_rates exCopyDb "TX" "12345" "2025-01-01" "2025-02-01").1
        "TX:12345:r1" "2025-01-01") ∧
    getValue (copy_rates exCopyDb "TX" "12345" "2025-01-01" "2025-02-01").1
        "TX:12345:r1" "2025-02-01" = some "100.0" := by
  have h := (copy_forward_correct exCopyDb "TX" "12345" "2025-01-01" "2025-02-01"
    (by decide) (by decide)).1 exCopyRow (by decide)
  exact h


/-! ## Region store (`MedicareDuckDBBuilder.save_region_data` and
`get_region_hash` in `src/build_duckdb.py`)

`save_region_data` wraps one discovery run's mutations in a single
`BEGIN TRANSACTION` … `COMMIT`, with `ROLLBACK` on any exception: the
embedding threads the pending store through the per-region loop and a
`failAt` index models an exception thrown while processing that region —
in which case the original store is returned with no id list (the code
returns `[]` after `ROLLBACK`).  Per region it computes the content hash
of the sorted location set (`get_region_hash` — md5 of the sorted JSON
list, modelled by the sorted location list itself), skips hashes already
handled in the batch, reuses the `region_id` of an existing
`region_metadata` row with the same `(naic, state, region_hash)`, and
otherwise inserts metadata, region data and location mappings under a
fresh id (`uuid4`, modelled by a fresh counter). -/

structure MetaRow where
  region_id : ℕ
  naic : String
  state : String
  mapping_type : String
  region_hash : List String
  deriving DecidableEq, Repr

structure RegionDataRow where
  region_id : ℕ
  naic : String
  state : String
  mapping_type : String
  region_data : List String
  deriving DecidableEq, Repr

structure StoreMapRow where
  zip_code : String
  county : String
  region_id : ℕ
  naic : String
  mapping_type : String
  deriving DecidableEq, Repr

structure RegionStore where
  nextId : ℕ
  metadata : List MetaRow
  rate_regions : List RegionDataRow
  region_mapping : List StoreMapRow
  deriving DecidableEq, Repr

def get_region_hash (s : Finset String) : List String := s.sort (· ≤ ·)

def mapInsertOrReplace (l : List StoreMapRow) (m : StoreMapRow) : List StoreMapRow :=
  l.filter (fun x => !(decide (x.zip_code = m.zip_code) && decide (x.county = m.county) &&
    decide (x.naic = m.naic))) ++ [m]

def regionMappingRows (state naic : String) (region_id : ℕ) (mtype : String)
    (gaz : String → String → List String) (region : Finset String) : List StoreMapRow :=
  if mtype = "zip5" then
    (get_region_hash region).map (fun z =>
      { zip_code := z, county := "", region_id := region_id, naic := naic,
        mapping_type := mtype })
  else
    (get_region_hash region).flatMap (fun county =>
      { zip_code := "", county := county, region_id := region_id, naic := naic,
        mapping_type := mtype } ::
      (gaz state county).map (fun z =>
        { zip_code := z, county := county, region_id := region_id, naic := naic,
          mapping_type := mtype }))

def saveRegionGo (naic state mtype : String) (gaz : String → String → List String)
    (failAt : Option ℕ) :
    List (Finset String) → ℕ → RegionStore → List ℕ → List (List String) →
    Option (RegionStore × List ℕ)
  | [], _, st, ids, _ => some (st, ids)
  | region :: rest, idx, st, ids, hashes =>
    if failAt = some idx then none
    else
      let h := get_region_hash region
      if h ∈ hashes then
        saveRegionGo naic state mtype gaz failAt rest (idx + 1) st ids hashes
      else
        match st.metadata.find? (fun m => decide (m.naic = naic) && decide (m.state = state) &&
            decide (m.region_hash = h)) with
        | some m =>
          saveRegionGo naic state mtype gaz failAt rest (idx + 1) st (ids ++ [m.region_id])
            (hashes ++ [h])
        | none =>
          let rid := st.nextId
          let st' : RegionStore :=
            { nextId := st.nextId + 1,
              metadata := st.metadata ++
                [{ region_id := rid, naic := naic, state := state, mapping_type := mtype,
                   region_hash := h }],
              rate_regions := st.rate_regions ++
                [{ region_id := rid, naic := naic, state := state, mapping_type := mtype,
                   region_data := h }],
              region_mapping :=
                (regionMappingRows state naic rid mtype gaz region).foldl
                  mapInsertOrReplace st.region_mapping }
          saveRegionGo naic state mtype gaz failAt rest (idx + 1) st' (ids ++ [rid])
            (hashes ++ [h])

def save_region_data (st : RegionStore) (naic state : String) (regions : List (Finset String))
    (mtype : String) (gaz : String → String → List String) (failAt : Option ℕ) :
    RegionStore × Option (List ℕ) :=
  match saveRegionGo naic state mtype gaz failAt regions 0 st [] [] with
  | none => (st, none)
  | some (st', ids) => (st', some ids)

theorem saveRegionGo_fail (naic state mtype : String) (gaz : String → String → List String)
    (k : ℕ) :
    ∀ (regions : List (Finset String)) (idx : ℕ) (st : RegionStore) (ids : List ℕ)
      (hashes : List (List String)), idx ≤ k → k < idx + regions.length →
      saveRegionGo naic state mtype gaz (some k) regions idx st ids hashes = none := by
  intro regions
  induction regions with
  | nil =>
    intro idx st ids hashes hle hlt
    simp at hlt
    omega
  | cons region rest ih =>
    intro idx st ids hashes hle hlt
    by_cases hidx : k = idx
    · subst hidx
      rw [saveRegionGo]
      simp
    · have hlt' : idx < k := lt_of_le_of_ne hle (Ne.symm hidx)
      rw [saveRegionGo]
      rw [if_neg (by simp; omega)]
      have hle' : idx + 1 ≤ k := hlt'
      have hlt'' : k < (idx + 1) + rest.length := by
        simp [List.length_cons] at hlt
        omega
      by_cases hmem : get_region_hash region ∈ hashes
      · simp only [hmem, if_true]
        exact ih (idx + 1) st ids hashes hle' hlt''
      · simp only [hmem, if_false]
        cases hfind : st.metadata.find? (fun m => decide (m.naic = naic) &&
            decide (m.state = state) && decide (m.region_hash = get_region_hash region)) with
        | none => exact ih (idx + 1) _ _ _ hle' hlt''
        | some m => exact ih (idx + 1) _ _ _ hle' hlt''

theorem saveRegionGo_none_succeeds (naic state mtype : String)
    (gaz : String → String → List String) :
    ∀ (regions : List (Finset String)) (idx : ℕ) (st : RegionStore) (ids : List ℕ)
      (hashes : List (List String)),
      (∀ h ∈ hashes, ∃ m ∈ st.metadata, m.naic = naic ∧ m.state = state ∧ m.region_hash = h) →
      ∃ st' ids', saveRegionGo naic state mtype gaz none regions idx st ids hashes =
          some (st', ids') ∧
        (∀ m ∈ st.metadata, m ∈ st'.metadata) ∧
        ∀ region ∈ regions, ∃ m ∈ st'.metadata,
          m.naic = naic ∧ m.state = state ∧ m.region_hash = get_region_hash region := by
  intro regions
  induction regions with
  | nil =>
    intro idx st ids hashes _
    exact ⟨st, ids, rfl, fun m hm => hm, by simp⟩
  | cons region rest ih =>
    intro idx st ids hashes hinv
    rw [saveRegionGo]
    rw [if_neg (by simp)]
    by_cases hmem : get_region_hash region ∈ hashes
    · simp only [hmem, if_true]
      obtain ⟨st', ids', heq, hmono, hcov⟩ := ih (idx + 1) st ids hashes hinv
      refine ⟨st', ids', heq, hmono, ?_⟩
      intro r hr
      rcases List.mem_cons.mp hr with hreq | hrrest
      · subst hreq
        obtain ⟨m, hm, hprops⟩ := hinv _ hmem
        exact ⟨m, hmono m hm, hprops⟩
      · exact hcov r hrrest
    · simp only [hmem, if_false]
      cases hfind : st.metadata.find? (fun m => decide (m.naic = naic) &&
          decide (m.state = state) && decide (m.region_hash = get_region_hash region)) with
      | some m =>
        have hm : m ∈ st.metadata := List.mem_of_find?_eq_some hfind
        have hprops := List.find?_some hfind
        simp only [Bool.and_eq_true, decide_eq_true_eq] at hprops
        have hinv' : ∀ h ∈ hashes ++ [get_region_hash region],
            ∃ m' ∈ st.metadata, m'.naic = naic ∧ m'.state = state ∧ m'.region_hash = h := by
          intro h hh
          rcases List.mem_append.mp hh with h1 | h2
          · exact hinv h h1
          · have : h = get_region_hash region := by simpa using h2
            subst this
            exact ⟨m, hm, hprops.1.1, hprops.1.2, hprops.2⟩
        obtain ⟨st', ids', heq, hmono, hcov⟩ := ih (idx + 1) st (ids ++ [m.region_id])
          (hashes ++ [get_region_hash region]) hinv'
        refine ⟨st', ids', heq, hmono, ?_⟩
        intro r hr
        rcases List.mem_cons.mp hr with hreq | hrrest
        · subst hreq
          exact ⟨m, hmono m hm, hprops.1.1, hprops.1.2, hprops.2⟩
        · exact hcov r hrrest
      | none =>
        set mNew : MetaRow := { region_id := st.nextId, naic := naic, state := state, mapping_type := mtype, region_hash := get_region_hash region } with hmNew
        set stNew : RegionStore := { nextId := st.nextId + 1, metadata := st.metadata ++ [mNew], rate_regions := st.rate_regions ++ [{ region_id := st.nextId, naic := naic, state := state, mapping_type := mtype, region_data := get_region_hash region }], region_mapping := (regionMappingRows state naic st.nextId mtype gaz region).foldl mapInsertOrReplace st.region_mapping } with hstNew
        have hinv' : ∀ h ∈ hashes ++ [get_region_hash region],
            ∃ m' ∈ stNew.metadata, m'.naic = naic ∧ m'.state = state ∧ m'.region_hash = h := by
          intro h hh
          rcases List.mem_append.mp hh with h1 | h2
          · obtain ⟨m', hm', hprops⟩ := hinv h h1
            exact ⟨m', by simp [hstNew, List.mem_append, hm'], hprops⟩
          · have : h = get_region_hash region := by simpa using h2
            subst this
            exact ⟨mNew, by simp [hstNew], rfl, rfl, rfl⟩
        obtain ⟨st', ids', heq, hmono, hcov⟩ := ih (idx + 1) stNew (ids ++ [st.nextId])
          (hashes ++ [get_region_hash region]) hinv'
        refine ⟨st', ids', heq, ?_, ?_⟩
        · intro m' hm'
          exact hmono m' (by simp [hstNew, List.mem_append, hm'])
        · intro r hr
          rcases List.mem_cons.mp hr with hreq | hrrest
          · subst hreq
            exact ⟨mNew, hmono mNew (by simp [hstNew]), rfl, rfl, rfl⟩
          · exact hcov r hrrest

def DedupInv (st : RegionStore) : Prop :=
  ∀ m1 ∈ st.metadata, ∀ m2 ∈ st.metadata,
    m1.naic = m2.naic → m1.state = m2.state → m1.region_hash = m2.region_hash →
      m1.region_id = m2.region_id

def FreshInv (st : RegionStore) : Prop :=
  ∀ m ∈ st.metadata, m.region_id < st.nextId

theorem saveRegionGo_inv (naic state mtype : String) (gaz : String → String → List String)
    (failAt : Option ℕ) :
    ∀ (regions : List (Finset String)) (idx : ℕ) (st : RegionStore) (ids : List ℕ)
      (hashes : List (List String)) (st' : RegionStore) (ids' : List ℕ),
      DedupInv st → FreshInv st →
      saveRegionGo naic state mtype gaz failAt regions idx st ids hashes = some (st', ids') →
      DedupInv st' ∧ FreshInv st' := by
  intro regions
  induction regions with
  | nil =>
    intro idx st ids hashes st' ids' hd hf heq
    rw [saveRegionGo] at heq
    obtain ⟨h1, -⟩ := Prod.mk.injEq .. ▸ Option.some.inj heq
    exact h1 ▸ ⟨hd, hf⟩
  | cons region rest ih =>
    intro idx st ids hashes st' ids' hd hf heq
    rw [saveRegionGo] at heq
    by_cases hfail : failAt = some idx
    · rw [if_pos hfail] at heq
      exact Option.noConfusion heq
    · rw [if_neg hfail] at heq
      by_cases hmem : get_region_hash region ∈ hashes
      · simp only [hmem, if_true] at heq
        exact ih (idx + 1) st ids hashes st' ids' hd hf heq
      · simp only [hmem, if_false] at heq
        cases hfind : st.metadata.find? (fun m => decide (m.naic = naic) &&
            decide (m.state = state) && decide (m.region_hash = get_region_hash region)) with
        | some m =>
          rw [hfind] at heq
          exact ih (idx + 1) st _ _ st' ids' hd hf heq
        | none =>
          rw [hfind] at heq
          have hnotin : ∀ m ∈ st.metadata,
              ¬(m.naic = naic ∧ m.state = state ∧ m.region_hash = get_region_hash region) := by
            intro m hm hcontr
            have := List.find?_eq_none.mp hfind m hm
            simp only [Bool.and_eq_true, decide_eq_true_eq] at this
            exact this ⟨⟨hcontr.1, hcontr.2.1⟩, hcontr.2.2⟩
          refine ih (idx + 1) _ _ _ st' ids' ?_ ?_ heq
          · intro m1 hm1 m2 hm2 hn hs hh
            simp only [List.mem_append, List.mem_singleton] at hm1 hm2
            rcases hm1 with hm1 | hm1 <;> rcases hm2 with hm2 | hm2
            · exact hd m1 hm1 m2 hm2 hn hs hh
            · exfalso
              subst hm2
              exact hnotin m1 hm1 ⟨hn, hs, hh⟩
            · exfalso
              subst hm1
              exact hnotin m2 hm2 ⟨hn.symm, hs.symm, hh.symm⟩
            · subst hm1; subst hm2; rfl
          · intro m hm
            simp only [List.mem_append, List.mem_singleton] at hm
            rcases hm with hm | hm
            · exact Nat.lt_succ_of_lt (hf m hm)
            · subst hm
              exact Nat.lt_succ_self _

/-- C9. **Atomic region save.** If any error occurs while processing any
region of the batch, `save_region_data` returns the region store unchanged
and reports failure — no partial region graph is visible; and with no error
the save succeeds and commits the full set: every region of the batch ends
with a metadata row for `(naic, state)` carrying its content hash. -/
theorem save_region_data_atomic (st : RegionStore) (naic state : String)
    (regions : List (Finset String)) (mtype : String) (gaz : String → String → List String) :
    (∀ k, k < regions.length →
      save_region_data st naic state regions mtype gaz (some k) = (st, none)) ∧
    ∃ st' ids, save_region_data st naic state regions mtype gaz none = (st', some ids) ∧
      ∀ region ∈ regions, ∃ m ∈ st'.metadata,
        m.naic = naic ∧ m.state = state ∧ m.region_hash = get_region_hash region := by
  constructor
  · intro k hk
    rw [save_region_data, saveRegionGo_fail naic state mtype gaz k regions 0 st [] []
      (Nat.zero_le k) (by simpa using hk)]
  · obtain ⟨st', ids', heq, -, hcov⟩ :=
      saveRegionGo_none_succeeds naic state mtype gaz regions 0 st [] [] (by simp)
    exact ⟨st', ids', by rw [save_region_data, heq], hcov⟩

/-- C4. **Region dedup by content hash.** For a store in which any two
metadata rows of equal `(naic, state, region_hash)` already share one
region id and all ids are below the fresh counter, (a) every save —
failed or successful — preserves both invariants, so two stored regions
with identical sorted location sets always carry the same identifier;
and (b) saving a region whose hash already exists for `(naic, state)`
reuses the existing row's identifier and leaves the store unchanged. -/
theorem region_dedup (st : RegionStore) (naic state mtype : String)
    (gaz : String → String → List String) (hd : DedupInv st) (hf : FreshInv st) :
    (∀ regions failAt,
      DedupInv (save_region_data st naic state regions mtype gaz failAt).1 ∧
      FreshInv (save_region_data st naic state regions mtype gaz failAt).1) ∧
    (∀ s m, m ∈ st.metadata → m.naic = naic → m.state = state →
      m.region_hash = get_region_hash s →
      save_region_data st naic state [s] mtype gaz none = (st, some [m.region_id])) := by
  constructor
  · intro regions failAt
    rw [save_region_data]
    cases heq : saveRegionGo naic state mtype gaz failAt regions 0 st [] [] with
    | none => exact ⟨hd, hf⟩
    | some p =>
      obtain ⟨st', ids'⟩ := p
      exact saveRegionGo_inv naic state mtype gaz failAt regions 0 st [] [] st' ids' hd hf heq
  · intro s m hm hn hs hh
    rw [save_region_data]
    have hgo : saveRegionGo naic state mtype gaz none [s] 0 st [] [] =
        some (st, [m.region_id]) := by
      rw [saveRegionGo]
      rw [if_neg (by simp)]
      have hnotmem : get_region_hash s ∉ ([] : List (List String)) := List.not_mem_nil _
      simp only [hnotmem, if_false]
      cases hfind : st.metadata.find? (fun m' => decide (m'.naic = naic) &&
          decide (m'.state = state) && decide (m'.region_hash = get_region_hash s)) with
      | none =>
        exfalso
        have := List.find?_eq_none.mp hfind m hm
        simp only [Bool.and_eq_true, decide_eq_true_eq] at this
        exact this ⟨⟨hn, hs⟩, hh⟩
      | some m' =>
        have hm' : m' ∈ st.metadata := List.mem_of_find?_eq_some hfind
        have hprops := List.find?_some hfind
        simp only [Bool.and_eq_true, decide_eq_true_eq] at hprops
        have hid : m'.region_id = m.region_id :=
          hd m' hm' m hm (hprops.1.1.trans hn.symm) (hprops.1.2.trans hs.symm)
            (hprops.2.trans hh.symm)
        rw [saveRegionGo]
        simp [hid]
        rw [saveRegionGo]
    rw [hgo]

def gaz0 : String → String → List String := fun _ _ => []

def exRegion : Finset String := {"75001", "75002"}

def emptyStore : RegionStore :=
  { nextId := 0, metadata := [], rate_regions := [], region_mapping := [] }

def mEx : MetaRow :=
  { region_id := 7, naic := "12345", state := "TX", mapping_type := "zip5",
    region_hash := get_region_hash exRegion }

def st1 : RegionStore :=
  { nextId := 8, metadata := [mEx], rate_regions := [], region_mapping := [] }

/-- Witness for C9: injecting a failure at the first region of a
one-region batch leaves the empty store untouched and returns no ids. -/
theorem save_region_data_atomic_witness :
    save_region_data emptyStore "12345" "TX" [exRegion] "zip5" gaz0 (some 0) =
      (emptyStore, none) :=
  (save_region_data_atomic emptyStore "12345" "TX" [exRegion] "zip5" gaz0).1 0 (by decide)

/-- Witness for C4: saving a region whose sorted-location hash is already
stored for carrier 12345 in TX reuses the existing region id 7 and
changes nothing. -/
theorem region_dedup_witness :
    save_region_data st1 "12345" "TX" [exRegion] "zip5" gaz0 none = (st1, some [7]) := by
  have hd : DedupInv st1 := by
    intro m1 hm1 m2 hm2 _ _ _
    simp [st1] at hm1 hm2
    rw [hm1, hm2]
  have hf : FreshInv st1 := by
    intro m hm
    simp [st1] at hm
    rw [hm]
    show (7 : ℕ) < 8
    decide
  exact (region_dedup st1 "12345" "TX" "zip5" gaz0 hd hf).2 exRegion mEx
    (by simp [st1]) rfl rfl rfl


/-! ## Quote deduplication (`winnow_quotes` in `src/build_db_new.py` and the
final pass of `filter_quote_fields` in `src/filter_utils.py`)

Both functions fold the quote list through a dict keyed by the demographic
tuple — `(age, gender, plan, tobacco)` in `winnow_quotes`,
`(naic, tobacco, age, plan, gender)` in `filter_quote_fields` — replacing
the stored quote only when the incoming rate is **strictly** higher, then
return the dict's values (insertion order, replacement in place).  The
embedding is generic in the key so one development covers both.
`winnowInsert` is the dict update; `champ`/`champList` name the
first-maximum of a list, used to state which quote each key retains. -/

variable {α K : Type} [DecidableEq K]

def winnowInsert (key : α → K) (rate : α → ℚ) : List α → α → List α
  | [], q => [q]
  | x :: xs, q =>
    if key x = key q then
      (if rate x < rate q then q :: xs else x :: xs)
    else x :: winnowInsert key rate xs q

def winnowQuotes (key : α → K) (rate : α → ℚ) (qs : List α) : List α :=
  qs.foldl (winnowInsert key rate) []

def champ (rate : α → ℚ) (c : α) (l : List α) : α :=
  l.foldl (fun b x => if rate b < rate x then x else b) c

def champList (rate : α → ℚ) : List α → Option α
  | [] => none
  | x :: xs => some (champ rate x xs)

theorem champ_cons (rate : α → ℚ) (c x : α) (xs : List α) :
    champ rate c (x :: xs) = champ rate (if rate c < rate x then x else c) xs := rfl

theorem champ_append_one (rate : α → ℚ) (c q : α) (l : List α) :
    champ rate c (l ++ [q]) =
      if rate (champ rate c l) < rate q then q else champ rate c l := by
  rw [champ, List.foldl_append]
  rfl

theorem champList_append_one (rate : α → ℚ) (q : α) (l : List α) :
    champList rate (l ++ [q]) =
      match champList rate l with
      | none => some q
      | some c => some (if rate c < rate q then q else c) := by
  cases l with
  | nil => rfl
  | cons x xs =>
    show champList rate (x :: (xs ++ [q])) = _
    rw [champList, champ_append_one]
    rfl

theorem champ_mem (rate : α → ℚ) (c : α) (l : List α) :
    champ rate c l = c ∨ champ rate c l ∈ l := by
  induction l generalizing c with
  | nil => exact Or.inl rfl
  | cons x xs ih =>
    rw [champ_cons]
    by_cases hc : rate c < rate x
    · rw [if_pos hc]
      rcases ih x with h | h
      · rw [h]
        exact Or.inr (List.mem_cons_self x xs)
      · exact Or.inr (List.mem_cons_of_mem x h)
    · rw [if_neg hc]
      rcases ih c with h | h
      · exact Or.inl h
      · exact Or.inr (List.mem_cons_of_mem x h)

theorem champ_max (rate : α → ℚ) (c : α) (l : List α) :
    rate c ≤ rate (champ rate c l) ∧ ∀ x ∈ l, rate x ≤ rate (champ rate c l) := by
  induction l generalizing c with
  | nil => exact ⟨le_refl _, by simp⟩
  | cons x xs ih =>
    rw [champ_cons]
    by_cases hc : rate c < rate x
    · rw [if_pos hc]
      obtain ⟨h1, h2⟩ := ih x
      refine ⟨le_of_lt (lt_of_lt_of_le hc h1), ?_⟩
      intro y hy
      rcases List.mem_cons.mp hy with h | h
      · exact h ▸ h1
      · exact h2 y h
    · rw [if_neg hc]
      obtain ⟨h1, h2⟩ := ih c
      refine ⟨h1, ?_⟩
      intro y hy
      rcases List.mem_cons.mp hy with h | h
      · exact h ▸ le_trans (le_of_not_lt hc) h1
      · exact h2 y h

theorem champ_first (rate : α → ℚ) (c : α) (l : List α) :
    ∃ l₁ l₂, c :: l = l₁ ++ champ rate c l :: l₂ ∧
      ∀ x ∈ l₁, rate x < rate (champ rate c l) := by
  induction l generalizing c with
  | nil => exact ⟨[], [], rfl, by simp⟩
  | cons x xs ih =>
    rw [champ_cons]
    by_cases hc : rate c < rate x
    · rw [if_pos hc]
      obtain ⟨l₁, l₂, hdecomp, hlt⟩ := ih x
      refine ⟨c :: l₁, l₂, ?_, ?_⟩
      · rw [List.cons_append, ← hdecomp]
      · intro y hy
        rcases List.mem_cons.mp hy with h | h
        · subst h
          exact lt_of_lt_of_le hc (champ_max rate x xs).1
        · exact hlt y h
    · rw [if_neg hc]
      obtain ⟨l₁, l₂, hdecomp, hlt⟩ := ih c
      cases l₁ with
      | nil =>
        have hc' : champ rate c xs = c := by
          simp only [List.nil_append] at hdecomp
          exact ((List.cons.injEq .. ▸ hdecomp).1).symm
        refine ⟨[], x :: xs, ?_, by simp⟩
        rw [hc']
        rfl
      | cons c₀ l₁' =>
        have hdecomp' : c :: xs = c₀ :: (l₁' ++ champ rate c xs :: l₂) := by
          simpa using hdecomp
        have h1 : c = c₀ := (List.cons.injEq .. ▸ hdecomp').1
        have h2 : xs = l₁' ++ champ rate c xs :: l₂ := (List.cons.injEq .. ▸ hdecomp').2
        have hcc : rate c < rate (champ rate c xs) := by
          have := hlt c₀ (List.mem_cons_self c₀ l₁')
          rw [← h1] at this
          exact this
        refine ⟨c :: x :: l₁', l₂, ?_, ?_⟩
        · rw [List.cons_append, List.cons_append, ← h2]
        · intro y hy
          rcases List.mem_cons.mp hy with h | h
          · subst h
            exact hcc
          · rcases List.mem_cons.mp h with h' | h'
            · subst h'
              exact lt_of_le_of_lt (le_of_not_lt hc) hcc
            · exact hlt y (List.mem_cons_of_mem c₀ h')

theorem winnowInsert_spec (key : α → K) (rate : α → ℚ) (acc : List α) (q : α) :
    ((∀ x ∈ acc, key x ≠ key q) ∧ winnowInsert key rate acc q = acc ++ [q]) ∨
    (∃ acc₁ x acc₂, acc = acc₁ ++ x :: acc₂ ∧ key x = key q ∧
      (∀ y ∈ acc₁, key y ≠ key q) ∧
      winnowInsert key rate acc q =
        acc₁ ++ (if rate x < rate q then q else x) :: acc₂) := by
  induction acc with
  | nil => exact Or.inl ⟨by simp, rfl⟩
  | cons a rest ih =>
    by_cases ha : key a = key q
    · refine Or.inr ⟨[], a, rest, by simp, ha, by simp, ?_⟩
      rw [winnowInsert, if_pos ha]
      by_cases hr : rate a < rate q
      · rw [if_pos hr, if_pos hr]
        rfl
      · rw [if_neg hr, if_neg hr]
        rfl
    · rcases ih with ⟨hall, heq⟩ | ⟨acc₁, x, acc₂, hdecomp, hx, hfirst, heq⟩
      · refine Or.inl ⟨?_, ?_⟩
        · intro y hy
          rcases List.mem_cons.mp hy with h | h
          · exact h ▸ ha
          · exact hall y h
        · rw [winnowInsert, if_neg ha, heq]
          rfl
      · refine Or.inr ⟨a :: acc₁, x, acc₂, by rw [hdecomp]; rfl, hx, ?_, ?_⟩
        · intro y hy
          rcases List.mem_cons.mp hy with h | h
          · exact h ▸ ha
          · exact hfirst y h
        · rw [winnowInsert, if_neg ha, heq]
          rfl

/-- The invariant carried over the fold: every processed quote's key is
represented, retained keys are pairwise distinct, and each retained quote
is the first maximum (`champList`) of the processed quotes with its key. -/
def WinnowInv (key : α → K) (rate : α → ℚ) (pre acc : List α) : Prop :=
  (∀ q ∈ pre, ∃ r ∈ acc, key r = key q) ∧
  List.Pairwise (fun a b => key a ≠ key b) acc ∧
  (∀ r ∈ acc, champList rate (pre.filter (fun q => decide (key q = key r))) = some r)

theorem winnowInsert_inv (key : α → K) (rate : α → ℚ) (pre acc : List α) (q : α)
    (hinv : WinnowInv key rate pre acc) :
    WinnowInv key rate (pre ++ [q]) (winnowInsert key rate acc q) := by
  obtain ⟨hcov, hpw, hch⟩ := hinv
  rcases winnowInsert_spec key rate acc q with ⟨hall, heq⟩ |
    ⟨acc₁, x, acc₂, hdecomp, hx, hfirst, heq⟩
  · rw [heq]
    refine ⟨?_, ?_, ?_⟩
    · intro q' hq'
      rcases List.mem_append.mp hq' with h | h
      · obtain ⟨r, hr, hkr⟩ := hcov q' h
        exact ⟨r, List.mem_append_left _ hr, hkr⟩
      · have hq'q : q' = q := by simpa using h
        exact ⟨q, List.mem_append_right _ (List.mem_singleton_self q), by rw [hq'q]⟩
    · rw [List.pairwise_append]
      refine ⟨hpw, List.pairwise_singleton _ _, ?_⟩
      intro a ha b hb
      have hbq : b = q := by simpa using hb
      rw [hbq]
      exact hall a ha
    · intro r hr
      rcases List.mem_append.mp hr with h | h
      · have hkrq : ¬(key q = key r) := fun hk => hall r h hk.symm
        have hfilter : (pre ++ [q]).filter (fun q' => decide (key q' = key r)) =
            pre.filter (fun q' => decide (key q' = key r)) := by
          rw [List.filter_append]
          have hnil : [q].filter (fun q' => decide (key q' = key r)) = [] := by
            simp [hkrq]
          rw [hnil, List.append_nil]
        rw [hfilter]
        exact hch r h
      · have hrq : r = q := by simpa using h
        have hfilpre : pre.filter (fun q' => decide (key q' = key r)) = [] := by
          rw [List.filter_eq_nil_iff]
          intro q' hq' hk
          simp only [decide_eq_true_eq] at hk
          obtain ⟨r', hr', hkr'⟩ := hcov q' hq'
          exact hall r' hr' (hkr'.trans (hk.trans (by rw [hrq])))
        rw [List.filter_append, hfilpre, List.nil_append]
        have hq1 : [q].filter (fun q' => decide (key q' = key r)) = [q] := by
          simp [hrq]
        rw [hq1]
        rw [hrq]
        rfl
  · rw [heq]
    have hkx' : key (if rate x < rate q then q else x) = key q := by
      by_cases hr : rate x < rate q
      · rw [if_pos hr]
      · rw [if_neg hr]; exact hx
    have hmemx : x ∈ acc := hdecomp ▸ List.mem_append_right _ (List.mem_cons_self x acc₂)
    have hpw_decomp := hdecomp ▸ hpw
    rw [List.pairwise_append] at hpw_decomp
    obtain ⟨hpw₁, hpw₂, hcross⟩ := hpw_decomp
    refine ⟨?_, ?_, ?_⟩
    · intro q' hq'
      rcases List.mem_append.mp hq' with h | h
      · obtain ⟨r, hr, hkr⟩ := hcov q' h
        rw [hdecomp] at hr
        rcases List.mem_append.mp hr with h1 | h1
        · exact ⟨r, List.mem_append_left _ h1, hkr⟩
        · rcases List.mem_cons.mp h1 with h2 | h2
          · refine ⟨if rate x < rate q then q else x,
              List.mem_append_right _ (List.mem_cons_self _ _), ?_⟩
            exact hkx'.trans (hx.symm.trans (h2 ▸ hkr))
          · exact ⟨r, List.mem_append_right _ (List.mem_cons_of_mem _ h2), hkr⟩
      · have hq'q : q' = q := by simpa using h
        exact ⟨if rate x < rate q then q else x,
          List.mem_append_right _ (List.mem_cons_self _ _), by rw [hq'q]; exact hkx'⟩
    · rw [List.pairwise_append]
      refine ⟨hpw₁, ?_, ?_⟩
      · rw [List.pairwise_cons] at hpw₂ ⊢
        refine ⟨?_, hpw₂.2⟩
        intro b hb
        rw [hkx', ← hx]
        exact hpw₂.1 b hb
      · intro a ha b hb
        rcases List.mem_cons.mp hb with h | h
        · rw [h, hkx', ← hx]
          exact hcross a ha x (List.mem_cons_self x acc₂)
        · exact hcross a ha b (List.mem_cons_of_mem _ h)
    · intro r hr
      rcases List.mem_append.mp hr with h | h
      · have hkr : key r ≠ key q := hfirst r h
        have hfilter : (pre ++ [q]).filter (fun q' => decide (key q' = key r)) =
            pre.filter (fun q' => decide (key q' = key r)) := by
          rw [List.filter_append]
          have hnil : [q].filter (fun q' => decide (key q' = key r)) = [] := by
            have hne : ¬(key q = key r) := fun hk => hkr hk.symm
            simp [hne]
          rw [hnil, List.append_nil]
        rw [hfilter]
        exact hch r (hdecomp ▸ List.mem_append_left _ h)
      · rcases List.mem_cons.mp h with h1 | h1
        · have hkeyr : key r = key x := by rw [h1, hkx', ← hx]
          have hqr : key q = key r := (hkeyr.trans hx).symm
          have hfq : (pre ++ [q]).filter (fun q' => decide (key q' = key r)) =
              pre.filter (fun q' => decide (key q' = key r)) ++ [q] := by
            rw [List.filter_append]
            have hq1 : [q].filter (fun q' => decide (key q' = key r)) = [q] := by
              simp [hqr]
            rw [hq1]
          have hpre_eq : pre.filter (fun q' => decide (key q' = key r)) =
              pre.filter (fun q' => decide (key q' = key x)) := by
            have hfun : (fun q' => decide (key q' = key r)) =
                (fun q' => decide (key q' = key x)) := by
              funext q'
              rw [hkeyr]
            rw [hfun]
          rw [hfq, hpre_eq, champList_append_one, hch x hmemx, h1]
        · have hkr : key r ≠ key q := by
            intro hk
            rw [List.pairwise_cons] at hpw₂
            exact hpw₂.1 r h1 (hx.trans hk.symm)
          have hfilter : (pre ++ [q]).filter (fun q' => decide (key q' = key r)) =
              pre.filter (fun q' => decide (key q' = key r)) := by
            rw [List.filter_append]
            have hnil : [q].filter (fun q' => decide (key q' = key r)) = [] := by
              have hne : ¬(key q = key r) := fun hk => hkr hk.symm
              simp [hne]
            rw [hnil, List.append_nil]
          rw [hfilter]
          exact hch r (hdecomp ▸ List.mem_append_right _ (List.mem_cons_of_mem x h1))

theorem winnow_fold_inv (key : α → K) (rate : α → ℚ) :
    ∀ (qs pre acc : List α), WinnowInv key rate pre acc →
      WinnowInv key rate (pre ++ qs) (qs.foldl (winnowInsert key rate) acc) := by
  intro qs
  induction qs with
  | nil =>
    intro pre acc h
    simpa using h
  | cons q rest ih =>
    intro pre acc h
    rw [List.foldl_cons]
    have h' := ih (pre ++ [q]) (winnowInsert key rate acc q)
      (winnowInsert_inv key rate pre acc q h)
    simpa [List.append_assoc] using h'

/-- C10. **Highest-rate dedup.** For every input list and key function:
(a) each retained quote is an input quote whose rate is ≥ the rate of every
input quote with the same key, and it is the first maximum of the input
quotes with its key (`champList`), so ties keep the first-seen quote;
(b) every input key is represented among the retained quotes; (c) retained
keys are pairwise distinct ("exactly one quote per key"). -/
theorem winnow_keeps_highest (key : α → K) (rate : α → ℚ) (qs : List α) :
    (∀ r ∈ winnowQuotes key rate qs,
      r ∈ qs ∧ (∀ q ∈ qs, key q = key r → rate q ≤ rate r) ∧
      ∃ l₁ l₂, qs.filter (fun q => decide (key q = key r)) = l₁ ++ r :: l₂ ∧
        ∀ x ∈ l₁, rate x < rate r) ∧
    (∀ q ∈ qs, ∃ r ∈ winnowQuotes key rate qs, key r = key q) ∧
    List.Pairwise (fun a b => key a ≠ key b) (winnowQuotes key rate qs) := by
  have hbase : WinnowInv key rate [] ([] : List α) :=
    ⟨by simp, List.Pairwise.nil, by simp⟩
  have hinv := winnow_fold_inv key rate qs [] [] hbase
  rw [List.nil_append] at hinv
  obtain ⟨hcov, hpw, hch⟩ := hinv
  refine ⟨?_, hcov, hpw⟩
  intro r hr
  have hchr := hch r hr
  cases hfil : qs.filter (fun q => decide (key q = key r)) with
  | nil =>
    rw [hfil] at hchr
    exact Option.noConfusion hchr
  | cons x xs =>
    rw [hfil] at hchr
    have hcr : champ rate x xs = r := Option.some.inj hchr
    have hrl : r ∈ x :: xs := by
      rcases champ_mem rate x xs with h | h
      · rw [← hcr, h]
        exact List.mem_cons_self x xs
      · rw [← hcr]
        exact List.mem_cons_of_mem x h
    have hrqs : r ∈ qs := by
      have := hfil ▸ hrl
      exact (List.mem_filter.mp this).1
    refine ⟨hrqs, ?_, ?_⟩
    · intro q hq hkq
      have hqfil : q ∈ x :: xs := by
        rw [← hfil]
        exact List.mem_filter.mpr ⟨hq, by simp [hkq]⟩
      obtain ⟨h1, h2⟩ := champ_max rate x xs
      rcases List.mem_cons.mp hqfil with h | h
      · rw [h, ← hcr] at *
        exact h1
      · rw [← hcr]
        exact h2 q h
    · obtain ⟨l₁, l₂, hdec, hlt⟩ := champ_first rate x xs
      rw [hcr] at hdec hlt
      exact ⟨l₁, l₂, hdec, hlt⟩


/-- One processed quote of `build_db_new.process_quote`, the element type
`winnow_quotes` deduplicates. -/
structure WQuote where
  age : ℕ
  gender : String
  plan : String
  tobacco : ℕ
  rate : ℚ
  discount_rate : ℚ
  label : String
  deriving DecidableEq, Repr

/-- `key = (quote['age'], quote['gender'], quote['plan'], quote['tobacco'])`. -/
def wkey (q : WQuote) : ℕ × String × String × ℕ := (q.age, q.gender, q.plan, q.tobacco)

/-- `winnow_quotes` (src/build_db_new.py). -/
def winnow_quotes (qs : List WQuote) : List WQuote := winnowQuotes wkey WQuote.rate qs

/-- The dedup key of `filter_quote_fields` (src/filter_utils.py):
`(naic, tobacco, age, plan, gender)`; its final pass is the same fold. -/
def fqDedupKey (q : FilteredQuote) : String × Bool × ℕ × String × String :=
  (q.naic, q.tobacco, q.age, q.plan, q.gender)

def filter_quote_fields_dedup (qs : List FilteredQuote) : List FilteredQuote :=
  winnowQuotes fqDedupKey FilteredQuote.rate qs

def wq1 : WQuote :=
  { age := 65, gender := "M", plan := "G", tobacco := 0,
    rate := 100, discount_rate := 95, label := "A" }

def wq2 : WQuote :=
  { age := 65, gender := "M", plan := "G", tobacco := 0,
    rate := 100, discount_rate := 90, label := "B" }

def wq3 : WQuote :=
  { age := 65, gender := "M", plan := "G", tobacco := 0,
    rate := 90, discount_rate := 85, label := "C" }

/-- Witness for C10: three quotes share one demographic key, two tied at the
highest rate; the dedup keeps exactly the first-seen highest-rate quote, a
member of the input whose rate dominates both duplicates. -/
theorem winnow_keeps_highest_witness :
    winnow_quotes [wq1, wq2, wq3] = [wq1] ∧
    wq1 ∈ ([wq1, wq2, wq3] : List WQuote) ∧
    wq2.rate ≤ wq1.rate ∧ wq3.rate ≤ wq1.rate := by
  have h := (winnow_keeps_highest wkey WQuote.rate [wq1, wq2, wq3]).1 wq1 (by decide)
  exact ⟨by decide, h.1, h.2.1 wq2 (by decide) (by decide), h.2.1 wq3 (by decide) (by decide)⟩

end BlitzQuote
